import Mathlib

/-!
Shallow embedding of the `str_id` crate (`src/lib.rs`).

The crate is a process-wide string interner.  Its global mutable state is
the atomic counter `NEXT_STR_ID: AtomicUsize` (initialized to 1) and the
lazily-initialized bidirectional cache
`STR_CACHE: OnceLock<RwLock<BiHashMap<StrID, &'static str>>>`.
We embed that state as an explicit `InternState` record threaded through
every operation; a `usize` is a natural number below `2 ^ 64`, and a panic
(the `expect` on `StrID` exhaustion) is `Option.none`.
-/

/-- Number of values of the `usize` type (the crate targets ordinary
64-bit platforms; the exact width only matters for counter wrap-around). -/
def USIZE_SIZE : Nat := 2 ^ 64

/-- Rust's `pub struct StrID(NonZeroUsize)`.  We carry the raw integer and prove
non-zeroness from the construction path (`StrID::try_new` refuses 0).
`PartialEq`/`Eq`/`Ord`/`Hash` all delegate to the underlying integer, which
matches the derived decidable equality here. -/
structure StrID where
  val : Nat
deriving DecidableEq, Repr

/-- The cache contents of `BiHashMap<StrID, &'static str>`, as a list of
(left, right) pairs.  The hash maps' iteration order is irrelevant: every
observation goes through the lookups below. -/
abbrev BiMap := List (StrID × String)

/-- Lookup `BiHashMap::get_by_left`: the string stored for an ID, if any. -/
def getByLeft (m : BiMap) (id : StrID) : Option String :=
  (m.find? (fun p => p.1 == id)).map Prod.snd

/-- Lookup `BiHashMap::get_by_right`: the ID stored for a string, if any. -/
def getByRight (m : BiMap) (s : String) : Option StrID :=
  (m.find? (fun p => p.2 == s)).map Prod.fst

/-- Insertion `BiHashMap::insert`: an overwriting insert that removes every pair
colliding with the new pair on either side, then records the new pair. -/
def biInsert (m : BiMap) (id : StrID) (s : String) : BiMap :=
  (m.filter (fun p => !(p.1 == id) && !(p.2 == s))) ++ [(id, s)]

/-- The global mutable state of the crate: the value of `NEXT_STR_ID` and
the contents of `STR_CACHE` (an absent `OnceLock` value and an initialized
empty map are observationally identical, so both are the empty list). -/
structure InternState where
  nextStrId : Nat
  cache : BiMap
deriving Repr

/-- Process start: `NEXT_STR_ID` is `AtomicUsize::new(1)` and the cache is
empty. -/
def initState : InternState := ⟨1, []⟩

/-- Allocation `StrID::try_new`: `NEXT_STR_ID.fetch_add(1, Ordering::Relaxed)` returns
the previous counter value and stores the wrapped successor;
`NonZeroUsize::new` rejects 0.  `StrID::new` then `expect`s the option, so a
`none` here is the "exhausted the available StrID values!" panic. -/
def tryNew (st : InternState) : Option StrID × InternState :=
  (if st.nextStrId = 0 then none else some ⟨st.nextStrId⟩,
   { st with nextStrId := (st.nextStrId + 1) % USIZE_SIZE })

/-- Resolution `StrID::as_str`: read-lock the cache and `get_by_left`, with `""` as the
fallback for an unknown ID (or an uninitialized cache). -/
def as_str (st : InternState) (id : StrID) : String :=
  (getByLeft st.cache id).getD ""

/-- Interning via `impl From<Box<str>> for StrID`: double-checked get-or-insert.  The
first `get_by_right` happens under the read lock, the second under the
write lock; `Box::leak` hands the bytes to the cache unchanged. -/
def internBoxStr (st : InternState) (s : String) : Option (StrID × InternState) :=
  match getByRight st.cache s with
  | some id => some (id, st)
  | none =>
    match getByRight st.cache s with
    | some id => some (id, st)
    | none =>
      match tryNew st with
      | (some id, st1) => some (id, { st1 with cache := biInsert st1.cache id s })
      | (none, _) => none

/-- Interning via `impl From<&str> for StrID`: same protocol; on a miss the borrowed
slice is copied (`s.to_string().into_boxed_str()`) before being leaked,
which preserves the bytes exactly. -/
def internStr (st : InternState) (s : String) : Option (StrID × InternState) :=
  match getByRight st.cache s with
  | some id => some (id, st)
  | none =>
    match getByRight st.cache s with
    | some id => some (id, st)
    | none =>
      match tryNew st with
      | (some id, st1) => some (id, { st1 with cache := biInsert st1.cache id s })
      | (none, _) => none

/-- Interning via `impl From<String> for StrID`: same protocol; on a miss the owned
buffer is converted with `into_boxed_str` and leaked, bytes unchanged. -/
def internString (st : InternState) (s : String) : Option (StrID × InternState) :=
  match getByRight st.cache s with
  | some id => some (id, st)
  | none =>
    match getByRight st.cache s with
    | some id => some (id, st)
    | none =>
      match tryNew st with
      | (some id, st1) => some (id, { st1 with cache := biInsert st1.cache id s })
      | (none, _) => none

/-- Construction via `impl Default for StrID`: `Self::from(<&str>::default())`, and the
default `&str` is the empty string. -/
def defaultStrID (st : InternState) : Option (StrID × InternState) :=
  internStr st ""

/-- Interning a list of strings in order (a single-threaded client),
collecting the returned IDs.  A panic anywhere aborts the run. -/
def internSeq (st : InternState) : List String → Option (List StrID × InternState)
  | [] => some ([], st)
  | s :: rest =>
    match internStr st s with
    | none => none
    | some (id, st1) =>
      match internSeq st1 rest with
      | none => none
      | some (ids, st2) => some (id :: ids, st2)

/-- The cache is injective from left to right: no ID occurs in two pairs. -/
def InjLeft (m : BiMap) : Prop := ∀ p ∈ m, ∀ q ∈ m, p.1 = q.1 → p = q

/-- The cache is injective from right to left: no string occurs in two
pairs. -/
def InjRight (m : BiMap) : Prop := ∀ p ∈ m, ∀ q ∈ m, p.2 = q.2 → p = q

/-- The state invariant maintained by the crate: the counter is a `usize`;
every cached ID is non-zero; unless the counter has wrapped to 0 (after
which no allocation can succeed), every cached ID is below the counter; and
the cache is injective in both directions. -/
def Invariant (st : InternState) : Prop :=
  st.nextStrId < USIZE_SIZE ∧
  (∀ p ∈ st.cache, 0 < p.1.val) ∧
  (st.nextStrId ≠ 0 → ∀ p ∈ st.cache, p.1.val < st.nextStrId) ∧
  InjLeft st.cache ∧ InjRight st.cache

theorem getByRight_mem {m : BiMap} {s : String} {id : StrID}
    (h : getByRight m s = some id) : (id, s) ∈ m := by
  unfold getByRight at h
  rcases Option.map_eq_some'.mp h with ⟨p, hfind, hfst⟩
  have hmem := List.mem_of_find?_eq_some hfind
  have hp := List.find?_some hfind
  have hsnd : p.2 = s := by simpa using hp
  cases p
  simp_all

theorem getByRight_eq_none {m : BiMap} {s : String} :
    getByRight m s = none ↔ ∀ p ∈ m, p.2 ≠ s := by
  unfold getByRight
  simp [List.find?_eq_none]

theorem mem_getByRight {m : BiMap} {s : String} {id : StrID}
    (hinj : InjRight m) (hmem : (id, s) ∈ m) : getByRight m s = some id := by
  unfold getByRight
  cases hfind : m.find? (fun p => p.2 == s) with
  | none =>
    exfalso
    have := List.find?_eq_none.mp hfind (id, s) hmem
    simp at this
  | some p =>
    have hpmem := List.mem_of_find?_eq_some hfind
    have hp := List.find?_some hfind
    have hsnd : p.2 = s := by simpa using hp
    have : p = (id, s) := hinj p hpmem (id, s) hmem (by simpa using hsnd)
    simp [this]

theorem getByLeft_mem {m : BiMap} {id : StrID} {s : String}
    (h : getByLeft m id = some s) : (id, s) ∈ m := by
  unfold getByLeft at h
  rcases Option.map_eq_some'.mp h with ⟨p, hfind, hsnd⟩
  have hmem := List.mem_of_find?_eq_some hfind
  have hp := List.find?_some hfind
  have hfst : p.1 = id := by simpa using hp
  cases p
  simp_all

theorem getByLeft_eq_none {m : BiMap} {id : StrID} :
    getByLeft m id = none ↔ ∀ p ∈ m, p.1 ≠ id := by
  unfold getByLeft
  simp [List.find?_eq_none]

theorem mem_getByLeft {m : BiMap} {id : StrID} {s : String}
    (hinj : InjLeft m) (hmem : (id, s) ∈ m) : getByLeft m id = some s := by
  unfold getByLeft
  cases hfind : m.find? (fun p => p.1 == id) with
  | none =>
    exfalso
    have := List.find?_eq_none.mp hfind (id, s) hmem
    simp at this
  | some p =>
    have hpmem := List.mem_of_find?_eq_some hfind
    have hp := List.find?_some hfind
    have hfst : p.1 = id := by simpa using hp
    have : p = (id, s) := hinj p hpmem (id, s) hmem (by simpa using hfst)
    simp [this]

theorem biInsert_of_fresh {m : BiMap} {id : StrID} {s : String}
    (h : ∀ p ∈ m, p.1 ≠ id ∧ p.2 ≠ s) : biInsert m id s = m ++ [(id, s)] := by
  unfold biInsert
  congr 1
  apply List.filter_eq_self.mpr
  intro p hp
  rcases h p hp with ⟨h1, h2⟩
  simp [h1, h2]

theorem internBoxStr_eq_internStr : internBoxStr = internStr := rfl

theorem internString_eq_internStr : internString = internStr := rfl

theorem USIZE_SIZE_pos : 0 < USIZE_SIZE := by norm_num [USIZE_SIZE]

theorem internStr_hit {st : InternState} {s : String} {id : StrID}
    (h : getByRight st.cache s = some id) : internStr st s = some (id, st) := by
  unfold internStr
  rw [h]

theorem internStr_miss {st : InternState} {s : String}
    (h : getByRight st.cache s = none) (h0 : st.nextStrId ≠ 0) :
    internStr st s =
      some (⟨st.nextStrId⟩,
        ⟨(st.nextStrId + 1) % USIZE_SIZE, biInsert st.cache ⟨st.nextStrId⟩ s⟩) := by
  unfold internStr tryNew
  rw [h]
  simp [h0]

theorem internStr_exhausted {st : InternState} {s : String}
    (h : getByRight st.cache s = none) (h0 : st.nextStrId = 0) :
    internStr st s = none := by
  unfold internStr tryNew
  rw [h]
  simp [h0]

theorem insert_fresh_eq {st : InternState} {s : String}
    (hinv : Invariant st) (hmiss : getByRight st.cache s = none)
    (h0 : st.nextStrId ≠ 0) :
    biInsert st.cache ⟨st.nextStrId⟩ s = st.cache ++ [(⟨st.nextStrId⟩, s)] := by
  apply biInsert_of_fresh
  intro p hp
  obtain ⟨hU, hpos, hlt, hL, hR⟩ := hinv
  refine ⟨?_, getByRight_eq_none.mp hmiss p hp⟩
  intro hid
  have hv := hlt h0 p hp
  rw [hid] at hv
  exact lt_irrefl _ hv

theorem invariant_insert {st : InternState} {s : String}
    (hinv : Invariant st) (hmiss : getByRight st.cache s = none)
    (h0 : st.nextStrId ≠ 0) :
    Invariant ⟨(st.nextStrId + 1) % USIZE_SIZE, biInsert st.cache ⟨st.nextStrId⟩ s⟩ := by
  have hfresh := insert_fresh_eq hinv hmiss h0
  obtain ⟨hU, hpos, hlt, hL, hR⟩ := hinv
  have hnotin : ∀ p ∈ st.cache, p.1 ≠ (⟨st.nextStrId⟩ : StrID) ∧ p.2 ≠ s := by
    intro p hp
    refine ⟨?_, getByRight_eq_none.mp hmiss p hp⟩
    intro hid
    have hv := hlt h0 p hp
    rw [hid] at hv
    exact lt_irrefl _ hv
  refine ⟨Nat.mod_lt _ USIZE_SIZE_pos, ?_, ?_, ?_, ?_⟩
  · intro p hp
    rw [InternState.cache] at hp
    rw [hfresh] at hp
    rcases List.mem_append.mp hp with h | h
    · exact hpos p h
    · simp only [List.mem_singleton] at h
      subst h
      exact Nat.pos_of_ne_zero h0
  · intro hn0 p hp
    simp only [InternState.nextStrId] at hn0 ⊢
    rw [InternState.cache] at hp
    rw [hfresh] at hp
    have hlt1 : st.nextStrId + 1 ≤ USIZE_SIZE := hU
    have heq : (st.nextStrId + 1) % USIZE_SIZE = st.nextStrId + 1 := by
      rcases lt_or_eq_of_le hlt1 with hl | he
      · exact Nat.mod_eq_of_lt hl
      · exfalso
        apply hn0
        rw [he]
        exact Nat.mod_self _
    rw [heq]
    rcases List.mem_append.mp hp with h | h
    · exact Nat.lt_succ_of_lt (hlt h0 p h)
    · simp only [List.mem_singleton] at h
      subst h
      exact Nat.lt_succ_self _
  · intro p hp q hq hpq
    rw [InternState.cache] at hp hq
    rw [hfresh] at hp hq
    rcases List.mem_append.mp hp with h1 | h1 <;>
      rcases List.mem_append.mp hq with h2 | h2
    · exact hL p h1 q h2 hpq
    · simp only [List.mem_singleton] at h2
      subst h2
      exact absurd hpq (hnotin p h1).1
    · simp only [List.mem_singleton] at h1
      subst h1
      exact absurd hpq.symm (hnotin q h2).1
    · simp only [List.mem_singleton] at h1 h2
      rw [h1, h2]
  · intro p hp q hq hpq
    rw [InternState.cache] at hp hq
    rw [hfresh] at hp hq
    rcases List.mem_append.mp hp with h1 | h1 <;>
      rcases List.mem_append.mp hq with h2 | h2
    · exact hR p h1 q h2 hpq
    · simp only [List.mem_singleton] at h2
      subst h2
      exact absurd hpq (hnotin p h1).2
    · simp only [List.mem_singleton] at h1
      subst h1
      exact absurd hpq.symm (hnotin q h2).2
    · simp only [List.mem_singleton] at h1 h2
      rw [h1, h2]

theorem InternState.eq_of_proj {a b : InternState}
    (h1 : a.nextStrId = b.nextStrId) (h2 : a.cache = b.cache) : a = b := by
  cases a
  cases b
  simp_all

theorem internStr_cases {st st' : InternState} {s : String} {id : StrID}
    (h : internStr st s = some (id, st')) :
    (getByRight st.cache s = some id ∧ st' = st) ∨
    (getByRight st.cache s = none ∧ st.nextStrId ≠ 0 ∧ id = ⟨st.nextStrId⟩ ∧
      st'.nextStrId = (st.nextStrId + 1) % USIZE_SIZE ∧
      st'.cache = biInsert st.cache ⟨st.nextStrId⟩ s) := by
  cases hg : getByRight st.cache s with
  | some i =>
    rw [internStr_hit hg] at h
    simp only [Option.some.injEq, Prod.mk.injEq] at h
    left
    exact ⟨by rw [h.1], h.2.symm⟩
  | none =>
    by_cases h0 : st.nextStrId = 0
    · rw [internStr_exhausted hg h0] at h
      cases h
    · rw [internStr_miss hg h0] at h
      simp only [Option.some.injEq, Prod.mk.injEq] at h
      right
      refine ⟨rfl, h0, h.1.symm, ?_, ?_⟩
      · rw [← h.2]
      · rw [← h.2]

theorem internStr_invariant {st st' : InternState} {s : String} {id : StrID}
    (hinv : Invariant st) (h : internStr st s = some (id, st')) :
    Invariant st' := by
  rcases internStr_cases h with ⟨_, rfl⟩ | ⟨hg, h0, _, hn, hc⟩
  · exact hinv
  · rw [@InternState.eq_of_proj st'
      ⟨(st.nextStrId + 1) % USIZE_SIZE, biInsert st.cache ⟨st.nextStrId⟩ s⟩ hn hc]
    exact invariant_insert hinv hg h0

theorem internStr_mem {st st' : InternState} {s : String} {id : StrID}
    (hinv : Invariant st) (h : internStr st s = some (id, st')) :
    (id, s) ∈ st'.cache := by
  rcases internStr_cases h with ⟨hg, rfl⟩ | ⟨hg, h0, hid, hn, hc⟩
  · exact getByRight_mem hg
  · subst hid
    rw [hc, insert_fresh_eq hinv hg h0]
    simp

theorem internStr_mono {st st' : InternState} {s : String} {id : StrID}
    (hinv : Invariant st) (h : internStr st s = some (id, st')) :
    ∀ p ∈ st.cache, p ∈ st'.cache := by
  rcases internStr_cases h with ⟨_, rfl⟩ | ⟨hg, h0, _, hn, hc⟩
  · intro p hp
    exact hp
  · intro p hp
    rw [hc, insert_fresh_eq hinv hg h0]
    exact List.mem_append_left _ hp

theorem internStr_ne_of_mem {st st2 : InternState} {s t : String} {id id2 : StrID}
    (hinv : Invariant st) (hmem : (id, s) ∈ st.cache) (hne : t ≠ s)
    (h : internStr st t = some (id2, st2)) : id2 ≠ id := by
  rcases internStr_cases h with ⟨hg, rfl⟩ | ⟨hg, h0, hid, -, -⟩
  · intro heq
    have hmem2 := getByRight_mem hg
    obtain ⟨_, _, _, hL, _⟩ := hinv
    have := hL (id2, t) hmem2 (id, s) hmem (by simpa using heq)
    exact hne (congrArg Prod.snd this)
  · subst hid
    intro heq
    obtain ⟨_, _, hlt, _, _⟩ := hinv
    have hv := hlt h0 (id, s) hmem
    rw [← heq] at hv
    exact lt_irrefl _ hv

theorem invariant_initState : Invariant initState := by
  refine ⟨by norm_num [USIZE_SIZE, initState], ?_, ?_, ?_, ?_⟩ <;>
    simp [initState, InjLeft, InjRight]

theorem internSeq_invariant_mono {ts : List String} {st st' : InternState}
    {ids : List StrID} (hinv : Invariant st)
    (h : internSeq st ts = some (ids, st')) :
    Invariant st' ∧ ∀ p ∈ st.cache, p ∈ st'.cache := by
  induction ts generalizing st ids with
  | nil =>
    simp only [internSeq, Option.some.injEq, Prod.mk.injEq] at h
    obtain ⟨-, rfl⟩ := h
    exact ⟨hinv, fun p hp => hp⟩
  | cons s rest ih =>
    cases h1 : internStr st s with
    | none =>
      simp only [internSeq, h1] at h
      cases h
    | some r =>
      obtain ⟨id1, st1⟩ := r
      cases h2 : internSeq st1 rest with
      | none =>
        simp only [internSeq, h1, h2] at h
        cases h
      | some r2 =>
        obtain ⟨ids2, st2⟩ := r2
        simp only [internSeq, h1, h2, Option.some.injEq, Prod.mk.injEq] at h
        obtain ⟨-, rfl⟩ := h
        have hinv1 := internStr_invariant hinv h1
        obtain ⟨hinv2, hmono2⟩ := ih hinv1 h2
        exact ⟨hinv2, fun p hp => hmono2 p (internStr_mono hinv h1 p hp)⟩

theorem tryNew_some {st st1 : InternState} {id : StrID}
    (h : tryNew st = (some id, st1)) :
    st.nextStrId ≠ 0 ∧ id = ⟨st.nextStrId⟩ ∧
    st1.nextStrId = (st.nextStrId + 1) % USIZE_SIZE ∧ st1.cache = st.cache := by
  simp only [tryNew, Prod.mk.injEq] at h
  by_cases h0 : st.nextStrId = 0
  · rw [if_pos h0] at h
    simp at h
  · rw [if_neg h0] at h
    obtain ⟨h1, h2⟩ := h
    simp only [Option.some.injEq] at h1
    refine ⟨h0, h1.symm, ?_, ?_⟩
    · rw [← h2]
    · rw [← h2]

/-- Claim C1: for every string `s`, resolving the identifier obtained by
interning `s` returns exactly `s`: `StrID::from(s).as_str() == s`. -/
theorem C1_round_trip {st st' : InternState} {s : String} {id : StrID}
    (hinv : Invariant st) (h : internStr st s = some (id, st')) :
    as_str st' id = s := by
  have hmem := internStr_mem hinv h
  obtain ⟨-, -, -, hL, -⟩ := internStr_invariant hinv h
  unfold as_str
  rw [mem_getByLeft hL hmem]
  rfl

/-- Witness for C1: intern "a" into the fresh process state and resolve. -/
theorem C1_witness :
    Invariant initState ∧
    internStr initState "a" = some (⟨1⟩, ⟨2, [(⟨1⟩, "a")]⟩) ∧
    as_str (⟨2, [(⟨1⟩, "a")]⟩ : InternState) ⟨1⟩ = "a" := by
  have h1 : internStr initState "a" = some (⟨1⟩, ⟨2, [(⟨1⟩, "a")]⟩) := rfl
  exact ⟨invariant_initState, h1, C1_round_trip invariant_initState h1⟩

/-- Claim C7: resolution is total and defensive — when the identifier is
absent from the cache (in particular when the cache has never been used at
all), `StrID::as_str` returns the empty string rather than failing. -/
theorem C7_resolve_defensive {st : InternState} {id : StrID}
    (h : getByLeft st.cache id = none) : as_str st id = "" := by
  unfold as_str
  rw [h]
  rfl

/-- Witness for C7: a bogus identifier against the untouched cache. -/
theorem C7_witness :
    getByLeft initState.cache ⟨5⟩ = none ∧ as_str initState ⟨5⟩ = "" :=
  ⟨rfl, C7_resolve_defensive rfl⟩

/-- Claim C9: if the string is already cached, each of the three `From`
impls returns the recorded identifier and leaves the entire state (cache
and allocation counter) unchanged. -/
theorem C9_frame {st : InternState} {s : String} {id : StrID}
    (h : getByRight st.cache s = some id) :
    internBoxStr st s = some (id, st) ∧ internStr st s = some (id, st) ∧
    internString st s = some (id, st) := by
  refine ⟨?_, internStr_hit h, ?_⟩
  · rw [internBoxStr_eq_internStr]
    exact internStr_hit h
  · rw [internString_eq_internStr]
    exact internStr_hit h

/-- Witness for C9: re-intern "a" when it is already cached. -/
theorem C9_witness :
    getByRight ((⟨2, [(⟨1⟩, "a")]⟩ : InternState)).cache "a" = some ⟨1⟩ ∧
    (internBoxStr ⟨2, [(⟨1⟩, "a")]⟩ "a" = some (⟨1⟩, ⟨2, [(⟨1⟩, "a")]⟩) ∧
      internStr ⟨2, [(⟨1⟩, "a")]⟩ "a" = some (⟨1⟩, ⟨2, [(⟨1⟩, "a")]⟩) ∧
      internString ⟨2, [(⟨1⟩, "a")]⟩ "a" = some (⟨1⟩, ⟨2, [(⟨1⟩, "a")]⟩)) :=
  ⟨rfl, C9_frame rfl⟩

/-- Claim C8: a default-constructed identifier is the identifier obtained by
interning the empty string (it is literally that call), and its underlying
integer is never zero. -/
theorem C8_default (st : InternState) (hinv : Invariant st) :
    defaultStrID st = internStr st "" ∧
    ∀ id st', defaultStrID st = some (id, st') → 0 < id.val := by
  refine ⟨rfl, ?_⟩
  intro id st' h
  rcases internStr_cases h with ⟨hg, -⟩ | ⟨-, h0, hid, -, -⟩
  · obtain ⟨-, hpos, -, -, -⟩ := hinv
    exact hpos _ (getByRight_mem hg)
  · subst hid
    exact Nat.pos_of_ne_zero h0

/-- Witness for C8 at the fresh process state. -/
theorem C8_witness :
    Invariant initState ∧
    (defaultStrID initState = internStr initState "" ∧
      ∀ id st', defaultStrID initState = some (id, st') → 0 < id.val) :=
  ⟨invariant_initState, C8_default initState invariant_initState⟩

/-- The three ownership forms of interning: `From<Box<str>>`, `From<&str>`,
`From<String>`. -/
def IsInternForm (f : InternState → String → Option (StrID × InternState)) : Prop :=
  f = internBoxStr ∨ f = internStr ∨ f = internString

theorem IsInternForm.eq_internStr {f : InternState → String → Option (StrID × InternState)}
    (hf : IsInternForm f) : f = internStr := by
  rcases hf with rfl | rfl | rfl
  · exact internBoxStr_eq_internStr
  · rfl
  · exact internString_eq_internStr

/-- Claim C2: interning the same string twice, through any mix of the three
ownership forms, yields the same identifier both times (the second call also
leaves the state untouched). -/
theorem C2_identity {f g : InternState → String → Option (StrID × InternState)}
    (hf : IsInternForm f) (hg : IsInternForm g)
    {st st' : InternState} {s : String} {id : StrID}
    (hinv : Invariant st) (h : f st s = some (id, st')) :
    g st' s = some (id, st') := by
  rw [hf.eq_internStr] at h
  rw [hg.eq_internStr]
  have hmem := internStr_mem hinv h
  obtain ⟨-, -, -, -, hR⟩ := internStr_invariant hinv h
  exact internStr_hit (mem_getByRight hR hmem)

/-- Witness for C2: intern "a" as a `Box<str>`, then again as a `String`. -/
theorem C2_witness :
    IsInternForm internBoxStr ∧ IsInternForm internString ∧
    Invariant initState ∧
    internBoxStr initState "a" = some (⟨1⟩, ⟨2, [(⟨1⟩, "a")]⟩) ∧
    internString (⟨2, [(⟨1⟩, "a")]⟩ : InternState) "a" =
      some (⟨1⟩, ⟨2, [(⟨1⟩, "a")]⟩) := by
  have h1 : internBoxStr initState "a" = some (⟨1⟩, ⟨2, [(⟨1⟩, "a")]⟩) := rfl
  refine ⟨Or.inl rfl, Or.inr (Or.inr rfl), invariant_initState, h1, ?_⟩
  exact C2_identity (Or.inl rfl) (Or.inr (Or.inr rfl)) invariant_initState h1

/-- Claim C3: interning two distinct strings yields distinct identifiers,
and the cache mapping stays injective in both directions. -/
theorem C3_distinct {st st1 st2 : InternState} {s1 s2 : String} {id1 id2 : StrID}
    (hinv : Invariant st) (hne : s1 ≠ s2)
    (h1 : internStr st s1 = some (id1, st1))
    (h2 : internStr st1 s2 = some (id2, st2)) :
    id1 ≠ id2 ∧ InjLeft st2.cache ∧ InjRight st2.cache := by
  have hinv1 := internStr_invariant hinv h1
  have hinv2 := internStr_invariant hinv1 h2
  have hmem1 := internStr_mem hinv h1
  have hne2 : s2 ≠ s1 := fun hx => hne hx.symm
  have hx := internStr_ne_of_mem hinv1 hmem1 hne2 h2
  exact ⟨fun he => hx he.symm, hinv2.2.2.2.1, hinv2.2.2.2.2⟩

/-- Witness for C3: intern "a" then "b" from the fresh process state. -/
theorem C3_witness :
    Invariant initState ∧ ("a" : String) ≠ "b" ∧
    internStr initState "a" = some (⟨1⟩, ⟨2, [(⟨1⟩, "a")]⟩) ∧
    internStr (⟨2, [(⟨1⟩, "a")]⟩ : InternState) "b" =
      some (⟨2⟩, ⟨3, [(⟨1⟩, "a"), (⟨2⟩, "b")]⟩) ∧
    ((⟨1⟩ : StrID) ≠ ⟨2⟩ ∧ InjLeft [(⟨1⟩, "a"), (⟨2⟩, "b")] ∧
      InjRight [(⟨1⟩, "a"), (⟨2⟩, "b")]) := by
  have h1 : internStr initState "a" = some (⟨1⟩, ⟨2, [(⟨1⟩, "a")]⟩) := rfl
  have h2 : internStr (⟨2, [(⟨1⟩, "a")]⟩ : InternState) "b" =
      some (⟨2⟩, ⟨3, [(⟨1⟩, "a"), (⟨2⟩, "b")]⟩) := rfl
  refine ⟨invariant_initState, by decide, h1, h2, ?_⟩
  exact C3_distinct invariant_initState (by decide) h1 h2

/-- Claim C5: once an identifier has been issued for a string, the cache
entry survives every later sequence of interning calls unmodified, the
identifier still resolves to its string, and interning any different string
never returns that identifier. -/
theorem C5_stable {st st' : InternState} {ts : List String} {ids : List StrID}
    {id : StrID} {s : String}
    (hinv : Invariant st) (hmem : (id, s) ∈ st.cache)
    (hrun : internSeq st ts = some (ids, st')) :
    (id, s) ∈ st'.cache ∧ as_str st' id = s ∧
    (∀ t id2 st2, t ≠ s → internStr st' t = some (id2, st2) → id2 ≠ id) := by
  obtain ⟨hinv2, hmono⟩ := internSeq_invariant_mono hinv hrun
  have hmem2 := hmono _ hmem
  refine ⟨hmem2, ?_, ?_⟩
  · unfold as_str
    rw [mem_getByLeft hinv2.2.2.2.1 hmem2]
    rfl
  · intro t id2 st2 hne h2
    exact internStr_ne_of_mem hinv2 hmem2 hne h2

/-- Witness for C5: "a" holds ID 1; intern "b" then "a" again afterwards. -/
theorem C5_witness :
    Invariant (⟨2, [(⟨1⟩, "a")]⟩ : InternState) ∧
    ((⟨1⟩ : StrID), "a") ∈ ((⟨2, [(⟨1⟩, "a")]⟩ : InternState)).cache ∧
    internSeq ⟨2, [(⟨1⟩, "a")]⟩ ["b", "a"] =
      some ([⟨2⟩, ⟨1⟩], ⟨3, [(⟨1⟩, "a"), (⟨2⟩, "b")]⟩) ∧
    (((⟨1⟩ : StrID), "a") ∈ ((⟨3, [(⟨1⟩, "a"), (⟨2⟩, "b")]⟩ : InternState)).cache ∧
      as_str ⟨3, [(⟨1⟩, "a"), (⟨2⟩, "b")]⟩ ⟨1⟩ = "a" ∧
      (∀ t id2 st2, t ≠ "a" →
        internStr ⟨3, [(⟨1⟩, "a"), (⟨2⟩, "b")]⟩ t = some (id2, st2) →
        id2 ≠ ⟨1⟩)) := by
  have hinv : Invariant (⟨2, [(⟨1⟩, "a")]⟩ : InternState) := by
    have h1 : internStr initState "a" = some (⟨1⟩, ⟨2, [(⟨1⟩, "a")]⟩) := rfl
    exact internStr_invariant invariant_initState h1
  have hmem : ((⟨1⟩ : StrID), "a") ∈ ((⟨2, [(⟨1⟩, "a")]⟩ : InternState)).cache := by
    simp
  have hrun : internSeq ⟨2, [(⟨1⟩, "a")]⟩ ["b", "a"] =
      some ([⟨2⟩, ⟨1⟩], ⟨3, [(⟨1⟩, "a"), (⟨2⟩, "b")]⟩) := rfl
  exact ⟨hinv, hmem, hrun, C5_stable hinv hmem hrun⟩

/-- Claim C6: the allocation counter starts at 1 and hands out its current
value, which is strictly positive — 0 is never issued; consecutive
successful allocations are strictly increasing; once the counter's range is
exhausted (it has wrapped to 0), allocation fails and an intern needing a
fresh identifier panics instead of continuing. -/
theorem C6_counter (st : InternState) (hU : st.nextStrId < USIZE_SIZE) :
    initState.nextStrId = 1 ∧
    (∀ id st1, tryNew st = (some id, st1) →
      0 < id.val ∧ id.val = st.nextStrId ∧
      st1.nextStrId = (st.nextStrId + 1) % USIZE_SIZE) ∧
    (∀ id1 st1 id2 st2, tryNew st = (some id1, st1) →
      tryNew st1 = (some id2, st2) → id1.val < id2.val) ∧
    (st.nextStrId = 0 → (tryNew st).1 = none) ∧
    (∀ s, getByRight st.cache s = none → st.nextStrId = 0 →
      internStr st s = none) := by
  refine ⟨rfl, ?_, ?_, ?_, ?_⟩
  · intro id st1 h
    obtain ⟨h0, hid, hn, -⟩ := tryNew_some h
    subst hid
    exact ⟨Nat.pos_of_ne_zero h0, rfl, hn⟩
  · intro id1 st1 id2 st2 h1 h2
    obtain ⟨h0, hid1, hn1, -⟩ := tryNew_some h1
    obtain ⟨h0', hid2, hn2, -⟩ := tryNew_some h2
    subst hid1
    subst hid2
    show st.nextStrId < st1.nextStrId
    rw [hn1] at h0' ⊢
    have hle : st.nextStrId + 1 ≤ USIZE_SIZE := hU
    rcases lt_or_eq_of_le hle with hl | he
    · rw [Nat.mod_eq_of_lt hl]
      exact Nat.lt_succ_self _
    · exfalso
      apply h0'
      rw [he]
      exact Nat.mod_self _
  · intro h0
    simp [tryNew, h0]
  · intro s hg h0
    exact internStr_exhausted hg h0

/-- Witness for C6 at the fresh process state. -/
theorem C6_witness :
    initState.nextStrId < USIZE_SIZE ∧
    (initState.nextStrId = 1 ∧
      (∀ id st1, tryNew initState = (some id, st1) →
        0 < id.val ∧ id.val = initState.nextStrId ∧
        st1.nextStrId = (initState.nextStrId + 1) % USIZE_SIZE) ∧
      (∀ id1 st1 id2 st2, tryNew initState = (some id1, st1) →
        tryNew st1 = (some id2, st2) → id1.val < id2.val) ∧
      (initState.nextStrId = 0 → (tryNew initState).1 = none) ∧
      (∀ s, getByRight initState.cache s = none → initState.nextStrId = 0 →
        internStr initState s = none)) :=
  ⟨by norm_num [initState, USIZE_SIZE], C6_counter initState (by norm_num [initState, USIZE_SIZE])⟩

theorem getByRight_append_single {m : BiMap} {id : StrID} {s t : String}
    (hm : getByRight m t = none) (hne : s ≠ t) :
    getByRight (m ++ [(id, s)]) t = none := by
  rw [getByRight_eq_none] at hm ⊢
  intro p hp
  rcases List.mem_append.mp hp with h | h
  · exact hm p h
  · simp only [List.mem_singleton] at h
    subst h
    exact hne

theorem internSeq_fresh {ss : List String} {st : InternState}
    (hinv : Invariant st) (hnodup : ss.Nodup)
    (hunseen : ∀ s ∈ ss, getByRight st.cache s = none)
    (h0 : st.nextStrId ≠ 0)
    (hroom : st.nextStrId + ss.length ≤ USIZE_SIZE) :
    ∃ st', internSeq st ss =
      some ((List.range' st.nextStrId ss.length).map StrID.mk, st') ∧
      st'.nextStrId = (st.nextStrId + ss.length) % USIZE_SIZE := by
  induction ss generalizing st with
  | nil =>
    refine ⟨st, rfl, ?_⟩
    rw [List.length_nil, Nat.add_zero, Nat.mod_eq_of_lt hinv.1]
  | cons s rest ih =>
    have hgs : getByRight st.cache s = none := hunseen s (List.mem_cons_self s rest)
    have hmiss := internStr_miss hgs h0
    have hroom1 : st.nextStrId + 1 + rest.length ≤ USIZE_SIZE := by
      simp only [List.length_cons] at hroom
      omega
    by_cases hU1 : st.nextStrId + 1 = USIZE_SIZE
    · have hrest : rest = [] := by
        have : rest.length = 0 := by
          simp only [List.length_cons] at hroom
          omega
        exact List.length_eq_zero.mp this
      subst hrest
      refine ⟨⟨(st.nextStrId + 1) % USIZE_SIZE, biInsert st.cache ⟨st.nextStrId⟩ s⟩,
        ?_, rfl⟩
      simp [internSeq, hmiss, List.range'_one]
    · have hklt : st.nextStrId + 1 < USIZE_SIZE :=
        Nat.lt_of_le_of_ne (by omega) hU1
      have hinvN := invariant_insert hinv hgs h0
      have hcacheN := insert_fresh_eq hinv hgs h0
      have hmodeq : (st.nextStrId + 1) % USIZE_SIZE = st.nextStrId + 1 :=
        Nat.mod_eq_of_lt hklt
      obtain ⟨hsnot, hnodup2⟩ := List.nodup_cons.mp hnodup
      have hunseenN : ∀ t ∈ rest,
          getByRight (biInsert st.cache ⟨st.nextStrId⟩ s) t = none := by
        intro t ht
        rw [hcacheN]
        refine getByRight_append_single (hunseen t (List.mem_cons_of_mem s ht)) ?_
        intro he
        exact hsnot (he ▸ ht)
      have h0N : (st.nextStrId + 1) % USIZE_SIZE ≠ 0 := by
        rw [hmodeq]
        omega
      have hroomN : (st.nextStrId + 1) % USIZE_SIZE + rest.length ≤ USIZE_SIZE := by
        rw [hmodeq]
        exact hroom1
      obtain ⟨st', hseq, hnext⟩ := ih hinvN hnodup2 hunseenN h0N hroomN
      rw [show ((⟨(st.nextStrId + 1) % USIZE_SIZE,
          biInsert st.cache ⟨st.nextStrId⟩ s⟩ : InternState)).nextStrId =
          st.nextStrId + 1 from hmodeq] at hseq hnext
      refine ⟨st', ?_, ?_⟩
      · simp only [internSeq, hmiss, hseq, List.length_cons, List.range'_succ,
          List.map_cons]
      · rw [hnext]
        simp only [List.length_cons]
        congr 1
        omega

/-- Claim C10 (implicit): starting from process start, interning `n`
distinct previously-unseen strings yields identifiers whose underlying
integers are exactly 1, 2, ..., n in order, and the counter ends at n + 1 —
it advances by exactly one per newly inserted string. -/
theorem C10_consecutive (ss : List String) (hnodup : ss.Nodup)
    (hlen : ss.length + 1 < USIZE_SIZE) :
    ∃ st', internSeq initState ss =
      some ((List.range' 1 ss.length).map StrID.mk, st') ∧
      st'.nextStrId = ss.length + 1 := by
  obtain ⟨st', hseq, hnext⟩ :=
    internSeq_fresh invariant_initState hnodup (fun s _ => rfl)
      (Nat.one_ne_zero) (by simp only [initState]; omega)
  have e1 : initState.nextStrId = 1 := rfl
  rw [e1] at hseq hnext
  refine ⟨st', hseq, ?_⟩
  rw [hnext, Nat.mod_eq_of_lt (by omega), Nat.add_comm]

/-- Witness for C10 with the three distinct strings "a", "b", "c". -/
theorem C10_witness :
    (["a", "b", "c"] : List String).Nodup ∧
    (["a", "b", "c"] : List String).length + 1 < USIZE_SIZE ∧
    (∃ st', internSeq initState ["a", "b", "c"] =
      some ((List.range' 1 (["a", "b", "c"] : List String).length).map StrID.mk,
        st') ∧
      st'.nextStrId = (["a", "b", "c"] : List String).length + 1) :=
  ⟨by decide, by norm_num [USIZE_SIZE],
    C10_consecutive ["a", "b", "c"] (by decide) (by norm_num [USIZE_SIZE])⟩

/-- Per-thread progress through the double-checked interning protocol for a
fixed string: before the read-lock lookup, between a read miss and the
write section, or finished with a returned ID. -/
inductive TState where
  | pend : TState
  | wait : TState
  | done : StrID → TState
deriving DecidableEq, Repr

/-- One atomic step of a thread interning `s`.  The read-lock lookup and
the write section (the mandatory re-check, then allocate-and-insert) are
each atomic: the `RwLock` serializes the write section against all other
accesses, and the read lookup is a snapshot taken under the read lock.
A `none` is a panic (counter exhaustion) inside that thread. -/
def threadStep (s : String) (st : InternState) :
    TState → Option (InternState × TState)
  | TState.pend =>
    match getByRight st.cache s with
    | some id => some (st, TState.done id)
    | none => some (st, TState.wait)
  | TState.wait =>
    match getByRight st.cache s with
    | some id => some (st, TState.done id)
    | none =>
      match tryNew st with
      | (some id, st1) =>
        some ({ st1 with cache := biInsert st1.cache id s }, TState.done id)
      | (none, _) => none
  | TState.done id => some (st, TState.done id)

/-- Run a schedule: at each tick the named thread performs its next atomic
step (a finished thread idles; an out-of-range index is skipped). -/
def runSched (s : String) :
    List Nat → InternState × List TState → Option (InternState × List TState)
  | [], cfg => some cfg
  | i :: rest, (st, ts) =>
    match ts[i]? with
    | none => runSched s rest (st, ts)
    | some t =>
      match threadStep s st t with
      | none => none
      | some (st1, t1) => runSched s rest (st1, ts.set i t1)

/-- Invariant of the concurrent run: the cache holds at most one entry for
`s`, and every finished thread returned the ID currently cached for `s`. -/
def RunInv (s : String) (st : InternState) (ts : List TState) : Prop :=
  st.cache.countP (fun p => p.2 == s) ≤ 1 ∧
  ∀ t ∈ ts, ∀ id, t = TState.done id → getByRight st.cache s = some id

theorem getByRight_biInsert_self (m : BiMap) (id : StrID) (s : String) :
    getByRight (biInsert m id s) s = some id := by
  unfold getByRight biInsert
  rw [List.find?_append]
  have h1 : (m.filter (fun p => !(p.1 == id) && !(p.2 == s))).find?
      (fun p => p.2 == s) = none := by
    rw [List.find?_eq_none]
    intro p hp
    have hmem := List.of_mem_filter hp
    simp only [Bool.and_eq_true, bne_iff_ne, ne_eq, Bool.not_eq_true'] at hmem ⊢
    simp only [beq_eq_false_iff_ne, ne_eq] at hmem
    simp [hmem.2]
  rw [h1]
  simp

theorem countP_biInsert_self (m : BiMap) (id : StrID) (s : String) :
    (biInsert m id s).countP (fun p => p.2 == s) = 1 := by
  unfold biInsert
  rw [List.countP_append]
  have h1 : (m.filter (fun p => !(p.1 == id) && !(p.2 == s))).countP
      (fun p => p.2 == s) = 0 := by
    rw [List.countP_eq_zero]
    intro p hp
    have hmem := List.of_mem_filter hp
    simp only [Bool.and_eq_true, Bool.not_eq_true'] at hmem
    simp only [beq_eq_false_iff_ne, ne_eq] at hmem
    simp [hmem.2]
  rw [h1]
  simp [List.countP_cons]

theorem countP_zero_of_getByRight_none {m : BiMap} {s : String}
    (h : getByRight m s = none) : m.countP (fun p => p.2 == s) = 0 := by
  rw [List.countP_eq_zero]
  intro p hp
  have := getByRight_eq_none.mp h p hp
  simpa using this

theorem threadStep_inv {s : String} {st st1 : InternState} {ts : List TState}
    {i : Nat} {t t1 : TState}
    (hinv : RunInv s st ts) (hget : ts[i]? = some t)
    (hstep : threadStep s st t = some (st1, t1)) :
    RunInv s st1 (ts.set i t1) := by
  obtain ⟨hcnt, hdone⟩ := hinv
  have htmem : t ∈ ts := List.getElem?_mem hget
  cases t with
  | pend =>
    cases hg : getByRight st.cache s with
    | some id =>
      simp only [threadStep, hg, Option.some.injEq, Prod.mk.injEq] at hstep
      obtain ⟨rfl, rfl⟩ := hstep
      refine ⟨hcnt, ?_⟩
      intro u hu id2 he
      rcases List.mem_or_eq_of_mem_set hu with hmem | rfl
      · exact hdone u hmem id2 he
      · cases he
        exact hg
    | none =>
      simp only [threadStep, hg, Option.some.injEq, Prod.mk.injEq] at hstep
      obtain ⟨rfl, rfl⟩ := hstep
      refine ⟨hcnt, ?_⟩
      intro u hu id2 he
      rcases List.mem_or_eq_of_mem_set hu with hmem | rfl
      · exact hdone u hmem id2 he
      · cases he
  | wait =>
    cases hg : getByRight st.cache s with
    | some id =>
      simp only [threadStep, hg, Option.some.injEq, Prod.mk.injEq] at hstep
      obtain ⟨rfl, rfl⟩ := hstep
      refine ⟨hcnt, ?_⟩
      intro u hu id2 he
      rcases List.mem_or_eq_of_mem_set hu with hmem | rfl
      · exact hdone u hmem id2 he
      · cases he
        exact hg
    | none =>
      cases htn : tryNew st with
      | mk o stx =>
        cases o with
        | none =>
          simp only [threadStep, hg, htn] at hstep
          cases hstep
        | some id =>
          simp only [threadStep, hg, htn, Option.some.injEq, Prod.mk.injEq] at hstep
          obtain ⟨rfl, rfl⟩ := hstep
          obtain ⟨-, -, -, hcx⟩ := tryNew_some htn
          constructor
          · show (biInsert stx.cache id s).countP (fun p => p.2 == s) ≤ 1
            rw [countP_biInsert_self]
          · intro u hu id2 he
            rcases List.mem_or_eq_of_mem_set hu with hmem | rfl
            · exfalso
              have := hdone u hmem id2 he
              rw [hg] at this
              cases this
            · cases he
              show getByRight (biInsert stx.cache id s) s = some id
              exact getByRight_biInsert_self stx.cache id s
  | done id =>
    simp only [threadStep, Option.some.injEq, Prod.mk.injEq] at hstep
    obtain ⟨rfl, rfl⟩ := hstep
    refine ⟨hcnt, ?_⟩
    intro u hu id2 he
    rcases List.mem_or_eq_of_mem_set hu with hmem | rfl
    · exact hdone u hmem id2 he
    · exact hdone _ htmem id2 he

theorem runSched_inv {s : String} {sched : List Nat}
    {st st' : InternState} {ts ts' : List TState}
    (hinv : RunInv s st ts)
    (hrun : runSched s sched (st, ts) = some (st', ts')) :
    RunInv s st' ts' ∧ ts'.length = ts.length := by
  induction sched generalizing st ts with
  | nil =>
    simp only [runSched, Option.some.injEq, Prod.mk.injEq] at hrun
    obtain ⟨rfl, rfl⟩ := hrun
    exact ⟨hinv, rfl⟩
  | cons i rest ih =>
    cases hget : ts[i]? with
    | none =>
      simp only [runSched, hget] at hrun
      exact ih hinv hrun
    | some t =>
      cases hstep : threadStep s st t with
      | none =>
        simp only [runSched, hget, hstep] at hrun
        cases hrun
      | some r =>
        obtain ⟨st1, t1⟩ := r
        simp only [runSched, hget, hstep] at hrun
        obtain ⟨hinv1, hlen⟩ := ih (threadStep_inv hinv hget hstep) hrun
        rw [hlen, List.length_set]
        exact ⟨hinv1, rfl⟩

/-- Claim C4: when `n` threads concurrently intern the same
previously-unseen string, then under any interleaving after which every
thread has finished, all `n` threads received the same identifier and
exactly one cache entry for that string exists afterward. -/
theorem C4_concurrent {s : String} {sched : List Nat} {n : Nat}
    {st0 st' : InternState} {ts' : List TState}
    (hn : 0 < n)
    (hunseen : getByRight st0.cache s = none)
    (hrun : runSched s sched (st0, List.replicate n TState.pend) =
      some (st', ts'))
    (hall : ∀ t ∈ ts', ∃ id, t = TState.done id) :
    ∃ id, (∀ t ∈ ts', t = TState.done id) ∧
      st'.cache.countP (fun p => p.2 == s) = 1 := by
  have hinv0 : RunInv s st0 (List.replicate n TState.pend) := by
    refine ⟨?_, ?_⟩
    · rw [countP_zero_of_getByRight_none hunseen]
      omega
    · intro t ht id he
      have hp := List.eq_of_mem_replicate ht
      rw [hp] at he
      cases he
  obtain ⟨⟨hcnt, hdone⟩, hlen⟩ := runSched_inv hinv0 hrun
  have hlen2 : ts'.length = n := by rw [hlen, List.length_replicate]
  have hne : ts' ≠ [] := List.ne_nil_of_length_pos (by omega)
  obtain ⟨t0, ht0⟩ := List.exists_mem_of_ne_nil ts' hne
  obtain ⟨id0, rfl⟩ := hall t0 ht0
  have hg0 := hdone _ ht0 id0 rfl
  refine ⟨id0, ?_, ?_⟩
  · intro t ht
    obtain ⟨idt, rfl⟩ := hall t ht
    have hgt := hdone _ ht idt rfl
    rw [hg0] at hgt
    cases hgt
    rfl
  · have hpos : 0 < st'.cache.countP (fun p => p.2 == s) := by
      rw [List.countP_pos_iff]
      exact ⟨(id0, s), getByRight_mem hg0, by simp⟩
    omega

/-- Witness for C4: two threads racing to intern "x", under the schedule
where both read-miss before either reaches the write lock, so the second
writer's mandatory re-check hits. -/
theorem C4_witness :
    (0 < 2) ∧
    getByRight initState.cache "x" = none ∧
    (∃ id, (∀ t ∈ [TState.done ⟨1⟩, TState.done ⟨1⟩], t = TState.done id) ∧
      ((⟨2, [(⟨1⟩, "x")]⟩ : InternState)).cache.countP
        (fun p => p.2 == "x") = 1) := by
  have hrun : runSched "x" [0, 1, 0, 1]
      (initState, List.replicate 2 TState.pend) =
      some (⟨2, [(⟨1⟩, "x")]⟩, [TState.done ⟨1⟩, TState.done ⟨1⟩]) := rfl
  have hall : ∀ t ∈ [TState.done (⟨1⟩ : StrID), TState.done ⟨1⟩],
      ∃ id, t = TState.done id := by
    intro t ht
    simp only [List.mem_cons, List.not_mem_nil, or_false] at ht
    rcases ht with rfl | rfl <;> exact ⟨⟨1⟩, rfl⟩
  have hunseen : getByRight initState.cache "x" = none := rfl
  exact ⟨by decide, hunseen, C4_concurrent (by decide) hunseen hrun hall⟩
